import Mathlib

/-
Verification of the `doublebuf` package: a read-optimized double-buffering
primitive (`DoubleBuffer[T]` in `doublebuf.go`).

The Go value `DoubleBuffer[T]` holds two storage slots `a` and `b`, role
pointers `back` and `front` (pointers to `&db.a` or `&db.b`, with `back`
possibly nil), an atomic pending cell `next` (an `atomic.Value` storing a
`*T`, possibly nil), and a capacity-1 reclaim channel `prev` (`chan *T`).
We embed slot pointers as the two-element type `Ptr`, nil-able pointers as
`Option Ptr`, and the channel contents as a `List Ptr` (the list of buffered
elements, in order; the channel's declared capacity is 1).
-/

namespace DoubleBuf

/-- Identity of one of the two storage slots: `&db.a` or `&db.b` in the Go
source. Slots never move; only the roles assigned to them change. -/
inductive Ptr where
  | pa
  | pb
deriving DecidableEq, Repr

/-- The state of a `DoubleBuffer[T]` value: the contents of the two slots,
the `back` and `front` role pointers, the pending cell `next`, and the
buffered contents of the capacity-1 reclaim channel `prev`. -/
structure DoubleBuffer (α : Type) where
  a : α
  b : α
  back : Option Ptr
  front : Ptr
  next : Option Ptr
  prev : List Ptr
deriving DecidableEq, Repr

variable {α : Type}

/-- Pointer dereference `*p` against a state. -/
def get (s : DoubleBuffer α) : Ptr → α
  | .pa => s.a
  | .pb => s.b

/-- Pointer write `*p = v`: the caller holds a slot pointer (obtained from
`Back`) and stores a value through it, as the benchmark does with `*j = i`. -/
def set (s : DoubleBuffer α) : Ptr → α → DoubleBuffer α
  | .pa, v => { s with a := v }
  | .pb, v => { s with b := v }

/-- Embeds `New(a, b)`: slot `a` gets the first value, slot `b` the second;
`back = &db.a`, `front = &db.b`, the pending cell stores nil, the reclaim
channel is empty. -/
def New (a b : α) : DoubleBuffer α :=
  { a := a, b := b, back := some .pa, front := .pb, next := none, prev := [] }

/-- Outcome of a `Back(ctx)` call: success returns the slot pointer and the
resulting state, cancellation returns `ctx.Err()` with the resulting state,
and `blocked` marks the case where the Go code would suspend (empty reclaim
channel, context not done). -/
inductive BackResult (α : Type) where
  | ok (p : Ptr) (s : DoubleBuffer α)
  | cancelled (s : DoubleBuffer α)
  | blocked
deriving DecidableEq, Repr

/-- Embeds `Back(ctx)`. `ctxDone` models whether `ctx.Done()` is closed at
call time. When `db.back == nil` the code enters a `select` over `ctx.Done()`
and a receive from `db.prev`; when both are ready Go picks one of the two
cases nondeterministically, which `pickCtx` resolves. -/
def Back (ctxDone pickCtx : Bool) (s : DoubleBuffer α) : BackResult α :=
  match s.back with
  | some p => .ok p s
  | none =>
    match s.prev, ctxDone with
    | [], true => .cancelled s
    | [], false => .blocked
    | p :: rest, false => .ok p { s with back := some p, prev := rest }
    | p :: rest, true =>
      if pickCtx then .cancelled s
      else .ok p { s with back := some p, prev := rest }

/-- Embeds `Ready()`: if `db.back != nil`, store it in the pending cell and
set `db.back = nil`; otherwise do nothing. -/
def Ready (s : DoubleBuffer α) : DoubleBuffer α :=
  match s.back with
  | some p => { s with next := some p, back := none }
  | none => s

/-- Embeds `Front()`: return `*db.front`. -/
def Front (s : DoubleBuffer α) : α :=
  get s s.front

/-- Embeds `Next()`: atomically take-and-clear the pending cell; if it held a
slot, send the old front on the reclaim channel and adopt the taken slot as
front. Returns the new state, `*db.front`, and the `changed` flag. The send
`db.prev <- db.front` is modelled as an append; it would block in Go only if
the channel already held its one element, and the reachability invariant
below (`Inv`) shows the channel is empty whenever the pending cell is
non-nil, so the append is exactly the non-blocking send. -/
def Next (s : DoubleBuffer α) : DoubleBuffer α × α × Bool :=
  match s.next with
  | some p =>
    let s2 : DoubleBuffer α :=
      { s with next := none, prev := s.prev ++ [s.front], front := p }
    (s2, get s2 s2.front, true)
  | none => ({ s with next := none }, get s s.front, false)

/-- One API action against the rotator, used to generate reachable states.
`write p v` is a store through a slot pointer previously handed out. -/
inductive Act (α : Type) where
  | back (ctxDone pickCtx : Bool)
  | ready
  | front
  | next
  | write (p : Ptr) (v : α)

/-- State effect of a `Back` call (the blocked case leaves the state as is,
matching a suspended goroutine that has not yet mutated anything). -/
def backState (ctxDone pickCtx : Bool) (s : DoubleBuffer α) : DoubleBuffer α :=
  match Back ctxDone pickCtx s with
  | .ok _ s2 => s2
  | .cancelled s2 => s2
  | .blocked => s

/-- State effect of one action. -/
def run : Act α → DoubleBuffer α → DoubleBuffer α
  | .back d pk, s => backState d pk s
  | .ready, s => Ready s
  | .front, s => s
  | .next, s => (Next s).1
  | .write p v, s => set s p v

/-- States reachable from some `New a b` by any sequence of API actions. -/
inductive Reachable : DoubleBuffer α → Prop where
  | init (a b : α) : Reachable (New a b)
  | step (act : Act α) (s : DoubleBuffer α) : Reachable s → Reachable (run act s)

/-- The inductive invariant of the rotator: the reclaim channel respects its
capacity and is empty whenever a submission is pending; `back`, `front`, the
pending slot and the buffered reclaim slot never alias where the protocol
forbids it; and `back` and the pending cell are never simultaneously
non-nil. -/
def Inv (s : DoubleBuffer α) : Prop :=
  (s.next ≠ none → s.prev = []) ∧
  s.prev.length ≤ 1 ∧
  (∀ p, s.back = some p → p ≠ s.front) ∧
  (∀ p, s.back = some p → s.next = none ∧ s.prev = []) ∧
  (∀ p, p ∈ s.prev → p ≠ s.front) ∧
  (∀ p, s.next = some p → p ≠ s.front) ∧
  (∀ p, s.next = some p → s.back = none)

/-- State of the C2 trace after acquiring the back slot, writing `1` through
the returned pointer and publishing: the pending cell holds the slot whose
content is `1`. -/
def c2s2 : DoubleBuffer ℕ :=
  Ready (set (New 0 0) .pa 1)

/-- State of the C2 trace after the producer overwrites the submitted slot
through the pointer it still holds: the pending cell now designates a slot
whose content is `2` (single-depth cell, later value wins). -/
def c2s3 : DoubleBuffer ℕ :=
  set c2s2 .pa 2

/-- Program counter of one thread executing the body of `Next()`, statement
by statement: `start` is before the atomic `Swap`; a thread that took a
non-nil pending slot still has to send the old front on `prev` (`toSend`),
then assign `db.front` (`toSetFront`), then read `*db.front` for the return
(`toRead true`); a thread whose `Swap` returned nil goes straight to the
return read (`toRead false`); `done v ch` holds the returned pair. -/
inductive NPhase (α : Type) where
  | start
  | toSend (p : Ptr)
  | toSetFront (p : Ptr)
  | toRead (changed : Bool)
  | done (v : α) (changed : Bool)
deriving DecidableEq, Repr

/-- Global state of N threads running `Next()` concurrently against one
shared rotator. -/
structure CState (α : Type) where
  g : DoubleBuffer α
  ths : List (NPhase α)
deriving DecidableEq, Repr

/-- Interleaving semantics of concurrent `Next()` calls: one step executes
one statement of one thread. The `Swap` is atomic (it takes and clears the
pending cell in one step); the channel send fires only while the capacity-1
channel has room, as in Go. -/
inductive CStep : CState α → CState α → Prop where
  | swap_hit (i : ℕ) (p : Ptr) (c : CState α) :
      c.ths[i]? = some .start → c.g.next = some p →
      CStep c ⟨{ c.g with next := none }, c.ths.set i (.toSend p)⟩
  | swap_miss (i : ℕ) (c : CState α) :
      c.ths[i]? = some .start → c.g.next = none →
      CStep c ⟨{ c.g with next := none }, c.ths.set i (.toRead false)⟩
  | send (i : ℕ) (p : Ptr) (c : CState α) :
      c.ths[i]? = some (.toSend p) → c.g.prev.length < 1 →
      CStep c ⟨{ c.g with prev := c.g.prev ++ [c.g.front] }, c.ths.set i (.toSetFront p)⟩
  | setFront (i : ℕ) (p : Ptr) (c : CState α) :
      c.ths[i]? = some (.toSetFront p) →
      CStep c ⟨{ c.g with front := p }, c.ths.set i (.toRead true)⟩
  | read (i : ℕ) (ch : Bool) (c : CState α) :
      c.ths[i]? = some (.toRead ch) →
      CStep c ⟨c.g, c.ths.set i (.done (Front c.g) ch)⟩

/-- Zero or more interleaved statements. -/
def CSteps : CState α → CState α → Prop :=
  Relation.ReflTransGen CStep

/-- A thread phase counts as a winner once its `Swap` has returned a non-nil
pending slot (it will return, or has returned, `changed = true`). -/
def isWinner : NPhase α → Bool
  | .start => false
  | .toSend _ => true
  | .toSetFront _ => true
  | .toRead ch => ch
  | .done _ ch => ch

/-- Number of winner threads. -/
def winners (c : CState α) : ℕ :=
  c.ths.countP isWinner

/-- Whether a thread has finished its `Next()` call. -/
def isDone : NPhase α → Bool
  | .done _ _ => true
  | _ => false

/-- Contribution of the pending cell to the conserved winner count. -/
def pendingCount (c : CState α) : ℕ :=
  if c.g.next.isSome then 1 else 0

/-- Content of a slot given the two slot values, which no concurrent `Next`
call ever mutates. -/
def contentOf (a0 b0 : α) : Ptr → α
  | .pa => a0
  | .pb => b0

/-- Inductive invariant of N concurrent `Next()` calls against an initial
state whose pending cell holds slot `p`, whose front is `f0` and whose slot
contents are `a0` and `b0`: the winner token (held either by the pending
cell or by exactly one thread) is conserved; every in-flight slot reference
is `p`; front is either the initial front or `p`, and is `p` as soon as some
winner has performed its front assignment; slot contents never change; and
every completed call returned either the pending value (winner) or one of
the two observable front values (non-winners). -/
def CInv (p f0 : Ptr) (a0 b0 : α) (c : CState α) : Prop :=
  winners c + pendingCount c = 1 ∧
  (c.g.next.isSome = true → ∀ t ∈ c.ths, t = NPhase.start) ∧
  (c.g.next = none ∨ c.g.next = some p) ∧
  (∀ q, NPhase.toSend q ∈ c.ths → q = p) ∧
  (∀ q, NPhase.toSetFront q ∈ c.ths → q = p) ∧
  (c.g.front = f0 ∨ c.g.front = p) ∧
  (NPhase.toRead true ∈ c.ths ∨ (∃ v, NPhase.done v true ∈ c.ths) → c.g.front = p) ∧
  c.g.a = a0 ∧
  c.g.b = b0 ∧
  (∀ v, NPhase.done v true ∈ c.ths → v = contentOf a0 b0 p) ∧
  (∀ v, NPhase.done v false ∈ c.ths → v = contentOf a0 b0 f0 ∨ v = contentOf a0 b0 p)

lemma back_writable (d pk : Bool) (s : DoubleBuffer α) (p : Ptr) (h : s.back = some p) :
    Back d pk s = .ok p s := by
  unfold Back
  rw [h]

lemma ready_submitted (s : DoubleBuffer α) (h : s.back = none) : Ready s = s := by
  unfold Ready
  rw [h]

/-- C1: after `New(0, 0)`, `Back` returns slot `&db.a` without changing
state; after writing `42` through it and calling `Ready`, the first `Next`
returns `(42, true)`; a second `Next` with no new publish returns
`(42, false)`; a subsequent `Back` succeeds immediately (no blocking) and
returns the previously-front slot `&db.b`, whose content is still `0`. -/
theorem c1_round_trip :
    Back false false (New (0 : ℕ) 0) = .ok .pa (New 0 0) ∧
    (Next (Ready (set (New (0 : ℕ) 0) .pa 42))).2 = (42, true) ∧
    (Next (Next (Ready (set (New (0 : ℕ) 0) .pa 42))).1).2 = (42, false) ∧
    Back false false (Next (Next (Ready (set (New (0 : ℕ) 0) .pa 42))).1).1 =
      .ok .pb { a := 42, b := 0, back := some .pb, front := .pa, next := none, prev := [] } ∧
    get (Next (Next (Ready (set (New (0 : ℕ) 0) .pa 42))).1).1 .pb = 0 := by
  decide

/-- C2: after `New(0, 0)` the producer acquires the back slot, writes `1`
through the returned pointer and publishes (the pending cell then designates
a slot holding `1`); still holding the same pointer it then writes `2`
through it, making the single pending cell designate a slot holding `2` —
the later submission replaces the earlier, and a further `Ready` is a no-op.
One single `Next` call then returns `(2, true)`, a second returns
`(2, false)`, and `1` is never the front value at any point of the trace. -/
theorem c2_last_publish_wins :
    Back false false (New (0 : ℕ) 0) = .ok .pa (New 0 0) ∧
    (c2s2.next = some .pa ∧ get c2s2 .pa = 1) ∧
    (c2s3.next = some .pa ∧ get c2s3 .pa = 2) ∧
    Ready c2s3 = c2s3 ∧
    (Next c2s3).2 = (2, true) ∧
    (Next (Next c2s3).1).2 = (2, false) ∧
    [Front (New (0 : ℕ) 0), Front c2s2, Front c2s3, Front (Next c2s3).1] = [0, 0, 0, 2] ∧
    (1 : ℕ) ∉ [Front (New (0 : ℕ) 0), Front c2s2, Front c2s3, Front (Next c2s3).1] := by
  decide

/-- C3: in any Writable state (`back = some p`), every `Back` call returns
the same slot `p` and leaves the state unchanged (so repeated calls return
the identical reference and never block); in any Submitted state
(`back = none`), `Ready` is a no-op on the whole rotator state. -/
theorem c3_idempotent (s t : DoubleBuffer α) (p : Ptr) (d pk : Bool)
    (hw : s.back = some p) (ht : t.back = none) :
    Back d pk s = .ok p s ∧ Ready t = t :=
  ⟨back_writable d pk s p hw, ready_submitted t ht⟩

theorem c3_witness :
    Back false false (New (0 : ℕ) 0) = .ok .pa (New 0 0) ∧
    Ready (Ready (New (0 : ℕ) 0)) = Ready (New 0 0) :=
  c3_idempotent (New 0 0) (Ready (New 0 0)) .pa false false rfl rfl

/-- C4: in any Submitted state with an empty reclaim channel, a `Back` call
whose context is done fails with the context error and leaves the state
unchanged (still Submitted, pending cell and front untouched); and if a
submission is pending, the next `Next` call observes `changed = true`, after
which a retried `Back` succeeds immediately, reclaiming the old front. -/
theorem c4_cancel_no_side_effects (s : DoubleBuffer α) (q : Ptr) (pk : Bool)
    (hb : s.back = none) (hp : s.prev = []) :
    Back true pk s = .cancelled s ∧
    (s.next = some q →
      (Next s).2.2 = true ∧
      Back false pk (Next s).1 =
        .ok s.front { (Next s).1 with back := some s.front, prev := [] }) := by
  obtain ⟨a, b, bk, f, nx, pv⟩ := s
  cases hb
  cases hp
  refine ⟨rfl, fun hq => ?_⟩
  cases hq
  exact ⟨rfl, rfl⟩

theorem c4_witness :
    Back true false (Ready (New (0 : ℕ) 0)) = .cancelled (Ready (New 0 0)) ∧
    (Next (Ready (New (0 : ℕ) 0))).2.2 = true ∧
    Back false false (Next (Ready (New (0 : ℕ) 0))).1 =
      .ok (Ready (New (0 : ℕ) 0)).front
        { (Next (Ready (New (0 : ℕ) 0))).1 with
            back := some (Ready (New (0 : ℕ) 0)).front, prev := [] } :=
  ⟨(c4_cancel_no_side_effects (Ready (New 0 0)) .pa false rfl rfl).1,
   (c4_cancel_no_side_effects (Ready (New 0 0)) .pa false rfl rfl).2 rfl⟩

/-- C9: for all initial values, `Front` of `New a b` is `b` (the second
argument becomes the front value), and the first `Back` returns — without
blocking and without error, whatever the context's state — the slot `&db.a`
initialized with the first argument `a`, leaving the state unchanged. -/
theorem c9_initial_roles (a b : α) (d pk : Bool) :
    Front (New a b) = b ∧ Back d pk (New a b) = .ok .pa (New a b) ∧ get (New a b) .pa = a :=
  ⟨rfl, rfl, rfl⟩

/-- C10: whenever the producer is Writable (`back = some p`), `Back` returns
slot `p` with no error even when the supplied context is already done; the
cancellation signal is consulted only in the Submitted branch. -/
theorem c10_ctx_ignored_when_writable (s : DoubleBuffer α) (p : Ptr) (pk : Bool)
    (h : s.back = some p) : Back true pk s = .ok p s :=
  back_writable true pk s p h

theorem c10_witness : Back true true (New (0 : ℕ) 0) = .ok .pa (New 0 0) :=
  c10_ctx_ignored_when_writable (New 0 0) .pa true rfl

lemma inv_new (a b : α) : Inv (New a b) := by
  refine ⟨fun h => absurd rfl h, Nat.zero_le 1, ?_, fun p hp => ⟨rfl, rfl⟩, ?_, ?_, ?_⟩
  · intro p hp
    injection hp with h
    subst h
    exact fun hc => Ptr.noConfusion hc
  · intro p hp
    exact absurd hp (List.not_mem_nil p)
  · intro p hp
    exact Option.noConfusion hp
  · intro p hp
    exact Option.noConfusion hp

lemma inv_backState (d pk : Bool) (s : DoubleBuffer α) (h : Inv s) :
    Inv (backState d pk s) := by
  obtain ⟨a, b, bk, f, nx, pv⟩ := s
  obtain ⟨h1, h2, h3, h4, h5, h6, h7⟩ := h
  cases bk with
  | some p => exact ⟨h1, h2, h3, h4, h5, h6, h7⟩
  | none =>
    cases pv with
    | nil =>
      cases d with
      | false => exact ⟨h1, h2, h3, h4, h5, h6, h7⟩
      | true => exact ⟨h1, h2, h3, h4, h5, h6, h7⟩
    | cons q rest =>
      have hrest : rest = [] := by
        have h2x : rest.length + 1 ≤ 1 := h2
        have hz : rest.length = 0 := by omega
        exact List.length_eq_zero.mp hz
      have hnx : nx = none := by
        cases nx with
        | none => rfl
        | some r => exact absurd (h1 (Option.some_ne_none r)) (List.cons_ne_nil q rest)
      subst hrest
      subst hnx
      have hok : ∀ p₀, p₀ ∈ [q] → Inv (⟨a, b, some q, f, none, ([] : List Ptr)⟩ : DoubleBuffer α) := by
        intro p₀ _
        refine ⟨fun _ => rfl, Nat.zero_le 1, ?_, fun p hp => ⟨rfl, rfl⟩, ?_, ?_, ?_⟩
        · intro p hp
          injection hp with h
          subst h
          exact h5 q (List.mem_cons_self q [])
        · intro p hp
          exact absurd hp (List.not_mem_nil p)
        · intro p hp
          exact Option.noConfusion hp
        · intro p hp
          exact Option.noConfusion hp
      cases d with
      | false => exact hok q (List.mem_cons_self q [])
      | true =>
        cases pk with
        | false => exact hok q (List.mem_cons_self q [])
        | true => exact ⟨h1, h2, h3, h4, h5, h6, h7⟩

lemma inv_ready (s : DoubleBuffer α) (h : Inv s) : Inv (Ready s) := by
  obtain ⟨a, b, bk, f, nx, pv⟩ := s
  obtain ⟨h1, h2, h3, h4, h5, h6, h7⟩ := h
  cases bk with
  | none => exact ⟨h1, h2, h3, h4, h5, h6, h7⟩
  | some p =>
    have hnx : nx = none := (h4 p rfl).1
    have hpv : pv = [] := (h4 p rfl).2
    subst hnx
    subst hpv
    refine ⟨fun _ => rfl, Nat.zero_le 1, ?_, ?_, ?_, ?_, fun q _ => rfl⟩
    · intro q hq
      exact Option.noConfusion hq
    · intro q hq
      exact Option.noConfusion hq
    · intro q hq
      exact absurd hq (List.not_mem_nil q)
    · intro q hq
      injection hq with h
      exact fun hc => h3 p rfl (h.trans hc)

lemma inv_next (s : DoubleBuffer α) (h : Inv s) : Inv (Next s).1 := by
  obtain ⟨a, b, bk, f, nx, pv⟩ := s
  obtain ⟨h1, h2, h3, h4, h5, h6, h7⟩ := h
  cases nx with
  | none =>
    refine ⟨fun hc => absurd rfl hc, h2, h3, ?_, h5, ?_, ?_⟩
    · intro p hp
      exact ⟨rfl, (h4 p hp).2⟩
    · intro p hp
      exact Option.noConfusion hp
    · intro p hp
      exact Option.noConfusion hp
  | some p =>
    have hpv : pv = [] := h1 (Option.some_ne_none p)
    have hbk : bk = none := h7 p rfl
    subst hpv
    subst hbk
    refine ⟨fun hc => absurd rfl hc, Nat.le_refl 1, ?_, ?_, ?_, ?_, ?_⟩
    · intro q hq
      exact Option.noConfusion hq
    · intro q hq
      exact Option.noConfusion hq
    · intro q hq
      have hq2 : q ∈ [f] := hq
      have hq3 : q = f := List.mem_singleton.mp hq2
      subst hq3
      exact Ne.symm (h6 p rfl)
    · intro q hq
      exact Option.noConfusion hq
    · intro q hq
      exact Option.noConfusion hq

lemma inv_run (act : Act α) (s : DoubleBuffer α) (h : Inv s) : Inv (run act s) := by
  cases act with
  | back d pk => exact inv_backState d pk s h
  | ready => exact inv_ready s h
  | front => exact h
  | next => exact inv_next s h
  | write p v =>
    obtain ⟨a, b, bk, f, nx, pv⟩ := s
    obtain ⟨h1, h2, h3, h4, h5, h6, h7⟩ := h
    cases p with
    | pa => exact ⟨h1, h2, h3, h4, h5, h6, h7⟩
    | pb => exact ⟨h1, h2, h3, h4, h5, h6, h7⟩

lemma inv_reachable {s : DoubleBuffer α} (h : Reachable s) : Inv s := by
  induction h with
  | init a b => exact inv_new a b
  | step act s hs ih => exact inv_run act s ih

/-- C5: in every state reachable by any sequence of API actions, whenever
`back` is non-nil it designates a different slot than `front` — the two role
pointers never alias. -/
theorem c5_no_aliasing (s : DoubleBuffer α) (hs : Reachable s) (p : Ptr)
    (hb : s.back = some p) : p ≠ s.front :=
  (inv_reachable hs).2.2.1 p hb

theorem c5_witness : Ptr.pa ≠ (New (0 : ℕ) 0).front :=
  c5_no_aliasing (New 0 0) (Reachable.init 0 0) .pa rfl

/-- C6: in every reachable state the capacity-1 reclaim channel buffers at
most one slot, and it is empty whenever the pending cell is non-nil — so the
send performed by a `Next` that takes a pending submission never blocks. -/
theorem c6_reclaim_bound (s : DoubleBuffer α) (hs : Reachable s) :
    s.prev.length ≤ 1 ∧ (s.next ≠ none → s.prev = []) :=
  ⟨(inv_reachable hs).2.1, (inv_reachable hs).1⟩

theorem c6_witness :
    (Ready (New (0 : ℕ) 0)).prev.length ≤ 1 ∧ (Ready (New (0 : ℕ) 0)).prev = [] :=
  ⟨(c6_reclaim_bound (Ready (New 0 0))
      (Reachable.step Act.ready (New 0 0) (Reachable.init 0 0))).1,
   (c6_reclaim_bound (Ready (New 0 0))
      (Reachable.step Act.ready (New 0 0) (Reachable.init 0 0))).2 (by decide)⟩

/-- C7: in every reachable state, publishing from a Writable state leaves
the rotator Submitted with an empty reclaim channel; while Submitted with an
empty reclaim channel no `Back` call can return successfully (it is
cancelled or blocked); and the only action that makes the reclaim channel
non-empty is a `Next` that observes `changed = true`. Together: after a
publish, a `Back` call cannot succeed before some `Next` observes
`changed = true`. -/
theorem c7_backpressure (s : DoubleBuffer α) (hs : Reachable s) :
    (∀ p, s.back = some p → (Ready s).back = none ∧ (Ready s).prev = []) ∧
    (s.back = none → s.prev = [] → ∀ d pk p t, Back d pk s ≠ .ok p t) ∧
    (∀ act : Act α, s.prev = [] → (run act s).prev ≠ [] →
      act = Act.next ∧ (Next s).2.2 = true) := by
  have hinv := inv_reachable hs
  obtain ⟨a, b, bk, f, nx, pv⟩ := s
  obtain ⟨h1, h2, h3, h4, h5, h6, h7⟩ := hinv
  refine ⟨?_, ?_, ?_⟩
  · intro p hp
    have hb : bk = some p := hp
    subst hb
    exact ⟨rfl, (h4 p rfl).2⟩
  · intro hb hpv d pk p t
    have hb2 : bk = none := hb
    have hp2 : pv = [] := hpv
    subst hb2
    subst hp2
    cases d with
    | false => exact fun hcon => BackResult.noConfusion hcon
    | true => exact fun hcon => BackResult.noConfusion hcon
  · intro act hpv hne
    have hp2 : pv = [] := hpv
    subst hp2
    cases act with
    | back d pk =>
      exfalso
      apply hne
      cases bk with
      | some p => rfl
      | none =>
        cases d with
        | false => rfl
        | true => rfl
    | ready =>
      exfalso
      apply hne
      cases bk with
      | some p => rfl
      | none => rfl
    | front => exact absurd rfl hne
    | next =>
      cases nx with
      | none => exact absurd rfl hne
      | some p => exact ⟨rfl, rfl⟩
    | write p v =>
      exfalso
      apply hne
      cases p with
      | pa => rfl
      | pb => rfl

theorem c7_witness :
    (Ready (New (0 : ℕ) 0)).back = none ∧ (Ready (New (0 : ℕ) 0)).prev = [] :=
  (c7_backpressure (New 0 0) (Reachable.init 0 0)).1 .pa rfl

lemma countP_set_eq (q : NPhase α → Bool) (l : List (NPhase α)) (i : ℕ) (x t : NPhase α)
    (h : l[i]? = some t) :
    (l.set i x).countP q + (if q t then 1 else 0) = l.countP q + (if q x then 1 else 0) := by
  induction l generalizing i with
  | nil => simp at h
  | cons hd tl ih =>
    cases i with
    | zero =>
      have ht : hd = t := by simpa using h
      subst ht
      cases hqh : q hd <;> cases hqx : q x <;>
        simp [List.countP_cons, hqh, hqx]
    | succ n =>
      have h2 : tl[n]? = some t := by simpa using h
      have ih2 := ih n h2
      cases hqt : q t <;> cases hqx : q x <;> cases hqh : q hd <;>
        simp [List.countP_cons, hqt, hqx, hqh] at ih2 ⊢ <;> omega

lemma cstep_winners {c c2 : CState α} (h : CStep c c2) :
    winners c2 + pendingCount c2 = winners c + pendingCount c := by
  cases h with
  | swap_hit i p c hi hp =>
    have hc := countP_set_eq isWinner c.ths i (.toSend p) .start hi
    simp [isWinner] at hc
    simp [winners, pendingCount, hp, hc]
  | swap_miss i c hi hp =>
    have hc := countP_set_eq isWinner c.ths i (.toRead false) .start hi
    simp [isWinner] at hc
    simp [winners, pendingCount, hp, hc]
  | send i p c hi hcap =>
    have hc := countP_set_eq isWinner c.ths i (.toSetFront p) (.toSend p) hi
    simp [isWinner] at hc
    simp [winners, pendingCount, hc]
  | setFront i p c hi =>
    have hc := countP_set_eq isWinner c.ths i (.toRead true) (.toSetFront p) hi
    simp [isWinner] at hc
    simp [winners, pendingCount, hc]
  | read i ch c hi =>
    have hc := countP_set_eq isWinner c.ths i (.done (Front c.g) ch) (.toRead ch) hi
    cases ch with
    | false =>
      simp [isWinner] at hc
      simp [winners, pendingCount, hc]
    | true =>
      simp [isWinner] at hc
      simp [winners, pendingCount, hc]

lemma cinv_step (p f0 : Ptr) (a0 b0 : α) {c c2 : CState α} (hst : CStep c c2)
    (h : CInv p f0 a0 b0 c) : CInv p f0 a0 b0 c2 := by
  obtain ⟨h1, h2, h3, h4, h5, h6, h7, h8, h9, h10, h11⟩ := h
  have hw := cstep_winners hst
  cases hst with
  | swap_hit i p2 c hi hp =>
    have hp2 : p2 = p := by
      rcases h3 with h3 | h3
      · rw [h3] at hp
        exact Option.noConfusion hp
      · rw [h3] at hp
        injection hp with e
        exact e.symm
    subst hp2
    refine ⟨hw.trans h1, ?_, Or.inl rfl, ?_, ?_, h6, ?_, h8, h9, ?_, ?_⟩
    · intro hs
      exact Bool.noConfusion hs
    · intro q hq
      rcases List.mem_or_eq_of_mem_set hq with hq | hq
      · exact h4 q hq
      · injection hq with e
    · intro q hq
      rcases List.mem_or_eq_of_mem_set hq with hq | hq
      · exact h5 q hq
      · exact NPhase.noConfusion hq
    · intro hmem
      rcases hmem with hmem | ⟨v, hmem⟩
      · rcases List.mem_or_eq_of_mem_set hmem with hm | hm
        · exact h7 (Or.inl hm)
        · exact NPhase.noConfusion hm
      · rcases List.mem_or_eq_of_mem_set hmem with hm | hm
        · exact h7 (Or.inr ⟨v, hm⟩)
        · exact NPhase.noConfusion hm
    · intro v hv
      rcases List.mem_or_eq_of_mem_set hv with hm | hm
      · exact h10 v hm
      · exact NPhase.noConfusion hm
    · intro v hv
      rcases List.mem_or_eq_of_mem_set hv with hm | hm
      · exact h11 v hm
      · exact NPhase.noConfusion hm
  | swap_miss i c hi hp =>
    refine ⟨hw.trans h1, ?_, Or.inl rfl, ?_, ?_, h6, ?_, h8, h9, ?_, ?_⟩
    · intro hs
      exact Bool.noConfusion hs
    · intro q hq
      rcases List.mem_or_eq_of_mem_set hq with hq | hq
      · exact h4 q hq
      · exact NPhase.noConfusion hq
    · intro q hq
      rcases List.mem_or_eq_of_mem_set hq with hq | hq
      · exact h5 q hq
      · exact NPhase.noConfusion hq
    · intro hmem
      rcases hmem with hmem | ⟨v, hmem⟩
      · rcases List.mem_or_eq_of_mem_set hmem with hm | hm
        · exact h7 (Or.inl hm)
        · injection hm with e
          exact Bool.noConfusion e
      · rcases List.mem_or_eq_of_mem_set hmem with hm | hm
        · exact h7 (Or.inr ⟨v, hm⟩)
        · exact NPhase.noConfusion hm
    · intro v hv
      rcases List.mem_or_eq_of_mem_set hv with hm | hm
      · exact h10 v hm
      · exact NPhase.noConfusion hm
    · intro v hv
      rcases List.mem_or_eq_of_mem_set hv with hm | hm
      · exact h11 v hm
      · exact NPhase.noConfusion hm
  | send i q2 c hi hcap =>
    have hq2 : q2 = p := h4 q2 (List.getElem?_mem hi)
    subst hq2
    refine ⟨hw.trans h1, ?_, h3, ?_, ?_, h6, ?_, h8, h9, ?_, ?_⟩
    · intro hs
      have hts := h2 hs _ (List.getElem?_mem hi)
      exact absurd hts (by simp)
    · intro q hq
      rcases List.mem_or_eq_of_mem_set hq with hq | hq
      · exact h4 q hq
      · exact NPhase.noConfusion hq
    · intro q hq
      rcases List.mem_or_eq_of_mem_set hq with hq | hq
      · exact h5 q hq
      · injection hq with e
    · intro hmem
      rcases hmem with hmem | ⟨v, hmem⟩
      · rcases List.mem_or_eq_of_mem_set hmem with hm | hm
        · exact h7 (Or.inl hm)
        · exact NPhase.noConfusion hm
      · rcases List.mem_or_eq_of_mem_set hmem with hm | hm
        · exact h7 (Or.inr ⟨v, hm⟩)
        · exact NPhase.noConfusion hm
    · intro v hv
      rcases List.mem_or_eq_of_mem_set hv with hm | hm
      · exact h10 v hm
      · exact NPhase.noConfusion hm
    · intro v hv
      rcases List.mem_or_eq_of_mem_set hv with hm | hm
      · exact h11 v hm
      · exact NPhase.noConfusion hm
  | setFront i q2 c hi =>
    have hq2 : q2 = p := h5 q2 (List.getElem?_mem hi)
    subst hq2
    refine ⟨hw.trans h1, ?_, h3, ?_, ?_, Or.inr rfl, fun _ => rfl, h8, h9, ?_, ?_⟩
    · intro hs
      have hts := h2 hs _ (List.getElem?_mem hi)
      exact absurd hts (by simp)
    · intro q hq
      rcases List.mem_or_eq_of_mem_set hq with hq | hq
      · exact h4 q hq
      · exact NPhase.noConfusion hq
    · intro q hq
      rcases List.mem_or_eq_of_mem_set hq with hq | hq
      · exact h5 q hq
      · exact NPhase.noConfusion hq
    · intro v hv
      rcases List.mem_or_eq_of_mem_set hv with hm | hm
      · exact h10 v hm
      · exact NPhase.noConfusion hm
    · intro v hv
      rcases List.mem_or_eq_of_mem_set hv with hm | hm
      · exact h11 v hm
      · exact NPhase.noConfusion hm
  | read i ch c hi =>
    refine ⟨hw.trans h1, ?_, h3, ?_, ?_, h6, ?_, h8, h9, ?_, ?_⟩
    · intro hs
      have hts := h2 hs _ (List.getElem?_mem hi)
      exact absurd hts (by simp)
    · intro q hq
      rcases List.mem_or_eq_of_mem_set hq with hq | hq
      · exact h4 q hq
      · exact NPhase.noConfusion hq
    · intro q hq
      rcases List.mem_or_eq_of_mem_set hq with hq | hq
      · exact h5 q hq
      · exact NPhase.noConfusion hq
    · intro hmem
      rcases hmem with hmem | ⟨v, hmem⟩
      · rcases List.mem_or_eq_of_mem_set hmem with hm | hm
        · exact h7 (Or.inl hm)
        · exact NPhase.noConfusion hm
      · rcases List.mem_or_eq_of_mem_set hmem with hm | hm
        · exact h7 (Or.inr ⟨v, hm⟩)
        · injection hm with e1 e2
          subst e2
          exact h7 (Or.inl (List.getElem?_mem hi))
    · intro v hv
      rcases List.mem_or_eq_of_mem_set hv with hm | hm
      · exact h10 v hm
      · injection hm with e1 e2
        subst e2
        subst e1
        have hfp : c.g.front = p := h7 (Or.inl (List.getElem?_mem hi))
        show get c.g c.g.front = contentOf a0 b0 p
        rw [hfp]
        cases p with
        | pa => exact h8
        | pb => exact h9
    · intro v hv
      rcases List.mem_or_eq_of_mem_set hv with hm | hm
      · exact h11 v hm
      · injection hm with e1 e2
        subst e2
        subst e1
        rcases h6 with h6 | h6
        · left
          show get c.g c.g.front = contentOf a0 b0 f0
          rw [h6]
          cases f0 with
          | pa => exact h8
          | pb => exact h9
        · right
          show get c.g c.g.front = contentOf a0 b0 p
          rw [h6]
          cases p with
          | pa => exact h8
          | pb => exact h9

lemma cinv_init (p : Ptr) (n : ℕ) (g0 : DoubleBuffer α) (hg : g0.next = some p) :
    CInv p g0.front g0.a g0.b ⟨g0, List.replicate n NPhase.start⟩ := by
  refine ⟨?_, ?_, Or.inr hg, ?_, ?_, Or.inl rfl, ?_, rfl, rfl, ?_, ?_⟩
  · have hz : (List.replicate n (NPhase.start : NPhase α)).countP isWinner = 0 := by
      rw [List.countP_eq_zero]
      intro t ht
      rw [(List.mem_replicate.mp ht).2]
      simp [isWinner]
    simp [winners, pendingCount, hz, hg]
  · intro _ t ht
    exact (List.mem_replicate.mp ht).2
  · intro q hq
    exact absurd (List.mem_replicate.mp hq).2 (by simp)
  · intro q hq
    exact absurd (List.mem_replicate.mp hq).2 (by simp)
  · intro hmem
    rcases hmem with hmem | ⟨v, hmem⟩
    · exact absurd (List.mem_replicate.mp hmem).2 (by simp)
    · exact absurd (List.mem_replicate.mp hmem).2 (by simp)
  · intro v hv
    exact absurd (List.mem_replicate.mp hv).2 (by simp)
  · intro v hv
    exact absurd (List.mem_replicate.mp hv).2 (by simp)

lemma cinv_csteps (p f0 : Ptr) (a0 b0 : α) {c c2 : CState α} (hs : CSteps c c2)
    (h : CInv p f0 a0 b0 c) : CInv p f0 a0 b0 c2 := by
  have hs2 : Relation.ReflTransGen CStep c c2 := hs
  clear hs
  induction hs2 with
  | refl => exact h
  | tail hab hbc ih => exact cinv_step p f0 a0 b0 hbc ih

lemma cstep_length {c c2 : CState α} (h : CStep c c2) : c2.ths.length = c.ths.length := by
  cases h <;> simp

lemma csteps_length {c c2 : CState α} (h : CSteps c c2) : c2.ths.length = c.ths.length := by
  have h2 : Relation.ReflTransGen CStep c c2 := h
  clear h
  induction h2 with
  | refl => rfl
  | tail hab hbc ih => exact (cstep_length hbc).trans ih

/-- C8, counterexample to the claim as stated: two threads run `Next()`
concurrently against the state with front value `0` and one pending
submission holding `42`. Thread 0 performs its atomic swap first (it is the
winner), thread 1 then swaps nil and immediately reads `*db.front` — before
the winner has executed `db.front = next` — completing with `(0, false)`.
The winner then finishes with `(42, true)`. The loser thus observes `0`,
not the front value the winner adopted (`42`), refuting "all the others
observe changed = false together with the front value the winner adopted". -/
theorem c8_counterexample :
    CSteps (⟨Ready (set (New (0 : ℕ) 0) .pa 42), List.replicate 2 NPhase.start⟩ : CState ℕ)
      ⟨⟨42, 0, none, .pa, none, [.pb]⟩, [NPhase.done 42 true, NPhase.done 0 false]⟩ ∧
    (0 : ℕ) ≠ 42 := by
  constructor
  · have t1 : CStep (⟨⟨42, 0, none, .pb, some .pa, []⟩, [NPhase.start, NPhase.start]⟩ : CState ℕ)
        ⟨⟨42, 0, none, .pb, none, []⟩, [NPhase.toSend .pa, NPhase.start]⟩ :=
      CStep.swap_hit 0 .pa _ rfl rfl
    have t2 : CStep (⟨⟨42, 0, none, .pb, none, []⟩, [NPhase.toSend .pa, NPhase.start]⟩ : CState ℕ)
        ⟨⟨42, 0, none, .pb, none, []⟩, [NPhase.toSend .pa, NPhase.toRead false]⟩ :=
      CStep.swap_miss 1 _ rfl rfl
    have t3 : CStep (⟨⟨42, 0, none, .pb, none, []⟩, [NPhase.toSend .pa, NPhase.toRead false]⟩ : CState ℕ)
        ⟨⟨42, 0, none, .pb, none, []⟩, [NPhase.toSend .pa, NPhase.done 0 false]⟩ :=
      CStep.read 1 false _ rfl
    have t4 : CStep (⟨⟨42, 0, none, .pb, none, []⟩, [NPhase.toSend .pa, NPhase.done 0 false]⟩ : CState ℕ)
        ⟨⟨42, 0, none, .pb, none, [.pb]⟩, [NPhase.toSetFront .pa, NPhase.done 0 false]⟩ :=
      CStep.send 0 .pa _ rfl (by decide)
    have t5 : CStep (⟨⟨42, 0, none, .pb, none, [.pb]⟩, [NPhase.toSetFront .pa, NPhase.done 0 false]⟩ : CState ℕ)
        ⟨⟨42, 0, none, .pa, none, [.pb]⟩, [NPhase.toRead true, NPhase.done 0 false]⟩ :=
      CStep.setFront 0 .pa _ rfl
    have t6 : CStep (⟨⟨42, 0, none, .pa, none, [.pb]⟩, [NPhase.toRead true, NPhase.done 0 false]⟩ : CState ℕ)
        ⟨⟨42, 0, none, .pa, none, [.pb]⟩, [NPhase.done 42 true, NPhase.done 0 false]⟩ :=
      CStep.read 0 true _ rfl
    exact Relation.ReflTransGen.head t1 (Relation.ReflTransGen.head t2
      (Relation.ReflTransGen.head t3 (Relation.ReflTransGen.head t4
        (Relation.ReflTransGen.head t5 (Relation.ReflTransGen.head t6
          Relation.ReflTransGen.refl)))))
  · decide

/-- C8, amended: if N ≥ 1 threads run `Next()` to completion, in any
interleaving, against a state with exactly one pending submission `p`, then
exactly one thread observes `changed = true`; that winner returns the
pending slot's value, and every thread observing `changed = false` returns
a then-current front value: either the pre-advance front value or the value
the winner adopted. -/
theorem c8_single_winner (p : Ptr) (n : ℕ) (g0 : DoubleBuffer α) (c : CState α)
    (hg : g0.next = some p) (hn : 1 ≤ n)
    (hsteps : CSteps ⟨g0, List.replicate n NPhase.start⟩ c)
    (hdone : ∀ t ∈ c.ths, isDone t = true) :
    c.ths.countP isWinner = 1 ∧
    (∀ v, NPhase.done v true ∈ c.ths → v = contentOf g0.a g0.b p) ∧
    (∀ v, NPhase.done v false ∈ c.ths →
      v = contentOf g0.a g0.b g0.front ∨ v = contentOf g0.a g0.b p) := by
  have hinv := cinv_csteps p g0.front g0.a g0.b hsteps (cinv_init p n g0 hg)
  obtain ⟨h1, h2, h3, h4, h5, h6, h7, h8, h9, h10, h11⟩ := hinv
  have hlen : c.ths.length = n := by
    have hl := csteps_length hsteps
    simpa using hl
  have hnil : c.ths ≠ [] := by
    intro hnil
    rw [hnil] at hlen
    simp at hlen
    omega
  obtain ⟨t, ht⟩ := List.exists_mem_of_ne_nil _ hnil
  have hpend : pendingCount c = 0 := by
    cases hopt : c.g.next with
    | none => simp [pendingCount, hopt]
    | some r =>
      have hts : t = NPhase.start := h2 (by rw [hopt]; rfl) t ht
      have hd := hdone t ht
      rw [hts] at hd
      exact Bool.noConfusion hd
  have hcount : c.ths.countP isWinner = 1 := by
    unfold winners at h1
    omega
  exact ⟨hcount, h10, h11⟩

theorem c8_witness :
    [NPhase.done (42 : ℕ) true, NPhase.done (42 : ℕ) false].countP isWinner = 1 ∧
    (42 : ℕ) = contentOf (42 : ℕ) 0 Ptr.pa := by
  have t1 : CStep (⟨⟨42, 0, none, .pb, some .pa, []⟩, [NPhase.start, NPhase.start]⟩ : CState ℕ)
      ⟨⟨42, 0, none, .pb, none, []⟩, [NPhase.toSend .pa, NPhase.start]⟩ :=
    CStep.swap_hit 0 .pa _ rfl rfl
  have t2 : CStep (⟨⟨42, 0, none, .pb, none, []⟩, [NPhase.toSend .pa, NPhase.start]⟩ : CState ℕ)
      ⟨⟨42, 0, none, .pb, none, [.pb]⟩, [NPhase.toSetFront .pa, NPhase.start]⟩ :=
    CStep.send 0 .pa _ rfl (by decide)
  have t3 : CStep (⟨⟨42, 0, none, .pb, none, [.pb]⟩, [NPhase.toSetFront .pa, NPhase.start]⟩ : CState ℕ)
      ⟨⟨42, 0, none, .pa, none, [.pb]⟩, [NPhase.toRead true, NPhase.start]⟩ :=
    CStep.setFront 0 .pa _ rfl
  have t4 : CStep (⟨⟨42, 0, none, .pa, none, [.pb]⟩, [NPhase.toRead true, NPhase.start]⟩ : CState ℕ)
      ⟨⟨42, 0, none, .pa, none, [.pb]⟩, [NPhase.done 42 true, NPhase.start]⟩ :=
    CStep.read 0 true _ rfl
  have t5 : CStep (⟨⟨42, 0, none, .pa, none, [.pb]⟩, [NPhase.done 42 true, NPhase.start]⟩ : CState ℕ)
      ⟨⟨42, 0, none, .pa, none, [.pb]⟩, [NPhase.done 42 true, NPhase.toRead false]⟩ :=
    CStep.swap_miss 1 _ rfl rfl
  have t6 : CStep (⟨⟨42, 0, none, .pa, none, [.pb]⟩, [NPhase.done 42 true, NPhase.toRead false]⟩ : CState ℕ)
      ⟨⟨42, 0, none, .pa, none, [.pb]⟩, [NPhase.done 42 true, NPhase.done 42 false]⟩ :=
    CStep.read 1 false _ rfl
  have hsteps : CSteps (⟨Ready (set (New (0 : ℕ) 0) .pa 42), List.replicate 2 NPhase.start⟩ : CState ℕ)
      ⟨⟨42, 0, none, .pa, none, [.pb]⟩, [NPhase.done 42 true, NPhase.done 42 false]⟩ :=
    Relation.ReflTransGen.head t1 (Relation.ReflTransGen.head t2
      (Relation.ReflTransGen.head t3 (Relation.ReflTransGen.head t4
        (Relation.ReflTransGen.head t5 (Relation.ReflTransGen.head t6
          Relation.ReflTransGen.refl)))))
  have happ := c8_single_winner .pa 2 (Ready (set (New (0 : ℕ) 0) .pa 42))
    ⟨⟨42, 0, none, .pa, none, [.pb]⟩, [NPhase.done 42 true, NPhase.done 42 false]⟩
    rfl (by decide) hsteps (by decide)
  exact ⟨happ.1, happ.2.1 42 (by decide)⟩

end DoubleBuf
